import Mathlib

/-!
Verification of `angustools/heat/heating_system_design.py`.

Demand values are modelled as rationals (`ℚ`), demand curves as `List ℚ`
read in pandas iteration order.  A Python function that can raise an
uncaught exception is embedded as a function into `Option` (`none` marks
the exception).
-/

/-- `area_part_load` of the source, line 67:
`ts[(ts <= Q) & (ts >= Q * min_val_rel)].sum()`. -/
def bandSum (ts : List ℚ) (q m : ℚ) : ℚ :=
  (ts.filter fun d => d ≤ q ∧ q * m ≤ d).sum

/-- The mutable local variables of the search loop of
`maximise_thermal_energy_output` (lines 58-74): the running best `area`,
the position `counter`, the previous distinct value `Q_old` (`none` plays
the role of the initial `np.nan`, which compares unequal to everything),
and the current best candidate `Q_nom` (`none` while still unassigned;
reading it while `none` is Python's `UnboundLocalError`). -/
structure LoopState where
  area : ℚ
  counter : ℕ
  q_old : Option ℚ
  q_nom : Option ℚ
deriving DecidableEq

/-- One iteration of the `for Q in ts.values` loop (lines 61-74), with the
three possible outcomes written as one nested conditional: the duplicate
skip (`Q == Q_old`), the improving step (`area < area_full_load +
area_part_load`, which assigns `area` and `Q_nom`), and the non-improving
step.  `counter` never drops below 1, so the truncated `counter - 1`
agrees with Python's integer subtraction on every reachable state. -/
def stepQ (ts : List ℚ) (m : ℚ) (s : LoopState) (q : ℚ) : LoopState :=
  if s.q_old = some q then
    { s with counter := s.counter + 1 }
  else if s.area < q * ((s.counter - 1 : ℕ) : ℚ) + bandSum ts q m then
    { area := q * ((s.counter - 1 : ℕ) : ℚ) + bandSum ts q m,
      counter := s.counter + 1, q_old := some q, q_nom := some q }
  else
    { s with counter := s.counter + 1, q_old := some q }

/-- The whole search loop, starting from `area = 0`, `counter = 1`,
`Q_old = nan`, `Q_nom` unassigned. -/
def runLoop (ts : List ℚ) (m : ℚ) : LoopState :=
  ts.foldl (stepQ ts m) ⟨0, 1, none, none⟩

/-- The internal best area held in the variable `area` when the loop
finishes. -/
def bestArea (ts : List ℚ) (m : ℚ) : ℚ :=
  (runLoop ts m).area

/-- The residual-curve update of lines 76-77.  The first map is
`ts[(ts <= Q_nom) & (ts >= Q_nom * min_val_rel)] = 0`; the second map is
`ts[(ts > Q_nom)] = ts - Q_nom`, whose mask and right-hand side pandas
evaluates on the series already updated by the first assignment. -/
def residual_update (ts : List ℚ) (qn m : ℚ) : List ℚ :=
  (ts.map fun d => if d ≤ qn ∧ qn * m ≤ d then 0 else d).map
    fun d => if qn < d then d - qn else d

/-- `maximise_thermal_energy_output` (lines 19-79).  Returns `none`
exactly when the loop never assigns `Q_nom`, in which case line 76 raises
`UnboundLocalError` in Python; otherwise the pair `(Q_nom, residual)`. -/
def maximise_thermal_energy_output (ts : List ℚ) (m : ℚ) :
    Option (ℚ × List ℚ) :=
  match (runLoop ts m).q_nom with
  | none => none
  | some qn => some (qn, residual_update ts qn m)

/-- numpy/pandas rounding of a rational to the nearest integer, half to
even. -/
def roundHalfEven (x : ℚ) : ℤ :=
  if x - ⌊x⌋ < 1/2 then ⌊x⌋
  else if 1/2 < x - ⌊x⌋ then ⌊x⌋ + 1
  else if ⌊x⌋ % 2 = 0 then ⌊x⌋ else ⌊x⌋ + 1

/-- `Series.round(5)` on one entry: round to 5 decimal places. -/
def round5 (x : ℚ) : ℚ :=
  (roundHalfEven (x * 100000) : ℚ) / 100000

/-- Insert a value into a descending-sorted list. -/
def insertDesc (x : ℚ) : List ℚ → List ℚ
  | [] => [x]
  | y :: ys => if y < x then x :: y :: ys else y :: insertDesc x ys

/-- `sort_values(ascending=False)` on the value sequence. -/
def sortDesc : List ℚ → List ℚ
  | [] => []
  | x :: xs => insertDesc x (sortDesc xs)

/-- Lines 120-122 of the cascade: `ts = ts[ts > 0].round(5)`, then sort
descending (the dropped pandas index is not modelled). -/
def prepareCurve (ts : List ℚ) : List ℚ :=
  sortDesc ((ts.filter fun d => 0 < d).map round5)

/-- One row of the `technologies` DataFrame after
`calculate_nominal_heat_by_tech`: the input column `Q_min_rel` and the
computed columns `Q_nom` and `Q_min`. -/
structure TechResult where
  Q_min_rel : ℚ
  Q_nom : ℚ
  Q_min : ℚ
deriving DecidableEq

/-- The `for technology in technologies.index` loop (lines 119-125),
threading the residual curve and recording each technology's
`Q_min_rel` together with its computed `Q_nom`.  An exception inside the
sizer propagates. -/
def cascadeLoop : List ℚ → List ℚ → Option (List (ℚ × ℚ))
  | [], _ => some []
  | m :: ms, ts =>
    match maximise_thermal_energy_output (prepareCurve ts) m with
    | none => none
    | some (qn, res) => (cascadeLoop ms res).map fun rest => (m, qn) :: rest

/-- `calculate_nominal_heat_by_tech` (lines 82-128): run the cascade over
the technologies' `Q_min_rel` column, then set
`technologies['Q_min'] = technologies['Q_nom'] * technologies['Q_min_rel']`
(line 127). -/
def calculate_nominal_heat_by_tech (ms : List ℚ) (ts : List ℚ) :
    Option (List TechResult) :=
  (cascadeLoop ms ts).map (List.map fun p => ⟨p.1, p.2, p.2 * p.1⟩)

/-- Number of time-steps with demand strictly above `q`: the spec's
`|{t : d_t > Q}|`. -/
def countGT (ts : List ℚ) (q : ℚ) : ℕ :=
  (ts.filter fun d => q < d).length

/-- The spec's objective
`A(Q) = Q * |{t : d_t > Q}| + Σ_{Q*min_rel ≤ d_t ≤ Q} d_t`. -/
def deliveredEnergy (ts : List ℚ) (m q : ℚ) : ℚ :=
  q * (countGT ts q : ℚ) + bandSum ts q m

/-- Modelled from the spec: the classic maximum-rectangle objective
`Q × count(d ≥ Q)` that the sizer is claimed to reduce to at
`min_rel = 1`. -/
def rectObjective (ts : List ℚ) (q : ℚ) : ℚ :=
  q * ((ts.filter fun d => q ≤ d).length : ℚ)

/-! ## A heap model of the pandas Series objects

Used to state the frame property: the sizer copies the caller's series
(line 57) and mutates only the copy. -/

/-- A store of pandas Series objects, addressed by allocation order. -/
structure Heap where
  cells : List (List ℚ)

/-- Read the value sequence of the series object at address `r`. -/
def Heap.read (h : Heap) (r : ℕ) : List ℚ :=
  h.cells.getD r []

/-- Allocate a fresh series object holding `v`; returns the new heap and
the fresh address. -/
def Heap.alloc (h : Heap) (v : List ℚ) : Heap × ℕ :=
  (⟨h.cells ++ [v]⟩, h.cells.length)

/-- Overwrite the series object at address `r` in place. -/
def Heap.write (h : Heap) (r : ℕ) (v : List ℚ) : Heap :=
  ⟨h.cells.set r v⟩

/-- `maximise_thermal_energy_output` acting on the object store: the
caller passes the address of its series; line 57 (`ts = ts.copy()`)
allocates a fresh object, the loop only reads, and the two masked
assignments of lines 76-77 write through the local reference.  Returns
the `Q_nom` result (`none` for the `UnboundLocalError` case), the address
holding the residual, and the final heap. -/
def maximiseOnHeap (h : Heap) (r : ℕ) (m : ℚ) : Option ℚ × ℕ × Heap :=
  let h1 := (h.alloc (h.read r)).1
  let r1 := (h.alloc (h.read r)).2
  let ts := h1.read r1
  match (runLoop ts m).q_nom with
  | none => (none, r1, h1)
  | some qn =>
    let h2 := h1.write r1 (ts.map fun d => if d ≤ qn ∧ qn * m ≤ d then 0 else d)
    let h3 := h2.write r1 ((h2.read r1).map fun d => if qn < d then d - qn else d)
    (some qn, r1, h3)

/-! ## Concrete evaluations -/

/-- Evaluation of the search loop on the spec's example curve with
`min_rel = 1/2`: the band sum at candidate 10 is `10+10+8+6 = 34`. -/
lemma runLoop_ex_half :
    runLoop [10, 10, 8, 6, 4] (1/2) = ⟨34, 6, some 4, some 10⟩ := by
  have hb10 : bandSum [10, 10, 8, 6, 4] 10 (1/2) = 34 := by
    norm_num [bandSum, List.filter_cons]
  have hb8 : bandSum [10, 10, 8, 6, 4] 8 (1/2) = 18 := by
    norm_num [bandSum, List.filter_cons]
  have hb6 : bandSum [10, 10, 8, 6, 4] 6 (1/2) = 10 := by
    norm_num [bandSum, List.filter_cons]
  have hb4 : bandSum [10, 10, 8, 6, 4] 4 (1/2) = 4 := by
    norm_num [bandSum, List.filter_cons]
  have h1 : stepQ [10, 10, 8, 6, 4] (1/2) ⟨0, 1, none, none⟩ 10 =
      ⟨34, 2, some 10, some 10⟩ := by
    norm_num [stepQ, hb10] <;> decide
  have h2 : stepQ [10, 10, 8, 6, 4] (1/2) ⟨34, 2, some 10, some 10⟩ 10 =
      ⟨34, 3, some 10, some 10⟩ := by
    norm_num [stepQ]
  have h3 : stepQ [10, 10, 8, 6, 4] (1/2) ⟨34, 3, some 10, some 10⟩ 8 =
      ⟨34, 4, some 8, some 10⟩ := by
    norm_num [stepQ, hb8]
  have h4 : stepQ [10, 10, 8, 6, 4] (1/2) ⟨34, 4, some 8, some 10⟩ 6 =
      ⟨34, 5, some 6, some 10⟩ := by
    norm_num [stepQ, hb6]
  have h5 : stepQ [10, 10, 8, 6, 4] (1/2) ⟨34, 5, some 6, some 10⟩ 4 =
      ⟨34, 6, some 4, some 10⟩ := by
    norm_num [stepQ, hb4]
  simp only [runLoop, List.foldl_cons, List.foldl_nil, h1, h2, h3, h4, h5]

/-- The sizer on the spec's example curve with `min_rel = 1/2` returns
nominal output 10 and residual `[0, 0, 0, 0, 4]`. -/
lemma maximise_ex_half :
    maximise_thermal_energy_output [10, 10, 8, 6, 4] (1/2) =
      some (10, [0, 0, 0, 0, 4]) := by
  simp only [maximise_thermal_energy_output, runLoop_ex_half]
  norm_num [residual_update]

/-- The internal best area on the example curve with `min_rel = 1/2`
is 34 (the tie between candidates 10 and 8). -/
lemma bestArea_ex_half : bestArea [10, 10, 8, 6, 4] (1/2) = 34 := by
  simp only [bestArea, runLoop_ex_half]

/-- Evaluation of the search loop on the example curve with the
out-of-range factor `min_rel = 2`: every band is empty, so only the
full-load rectangles count and candidate 6 wins with area 18. -/
lemma runLoop_ex_two :
    runLoop [10, 10, 8, 6, 4] 2 = ⟨18, 6, some 4, some 6⟩ := by
  have hb10 : bandSum [10, 10, 8, 6, 4] 10 2 = 0 := by
    norm_num [bandSum, List.filter_cons]
  have hb8 : bandSum [10, 10, 8, 6, 4] 8 2 = 0 := by
    norm_num [bandSum, List.filter_cons]
  have hb6 : bandSum [10, 10, 8, 6, 4] 6 2 = 0 := by
    norm_num [bandSum, List.filter_cons]
  have hb4 : bandSum [10, 10, 8, 6, 4] 4 2 = 0 := by
    norm_num [bandSum, List.filter_cons]
  have h1 : stepQ [10, 10, 8, 6, 4] 2 ⟨0, 1, none, none⟩ 10 =
      ⟨0, 2, some 10, none⟩ := by
    norm_num [stepQ, hb10] <;> decide
  have h2 : stepQ [10, 10, 8, 6, 4] 2 ⟨0, 2, some 10, none⟩ 10 =
      ⟨0, 3, some 10, none⟩ := by
    norm_num [stepQ]
  have h3 : stepQ [10, 10, 8, 6, 4] 2 ⟨0, 3, some 10, none⟩ 8 =
      ⟨16, 4, some 8, some 8⟩ := by
    norm_num [stepQ, hb8]
  have h4 : stepQ [10, 10, 8, 6, 4] 2 ⟨16, 4, some 8, some 8⟩ 6 =
      ⟨18, 5, some 6, some 6⟩ := by
    norm_num [stepQ, hb6]
  have h5 : stepQ [10, 10, 8, 6, 4] 2 ⟨18, 5, some 6, some 6⟩ 4 =
      ⟨18, 6, some 4, some 6⟩ := by
    norm_num [stepQ, hb4]
  simp only [runLoop, List.foldl_cons, List.foldl_nil, h1, h2, h3, h4, h5]

/-- With `min_rel = 2` the sizer silently returns nominal output 6 and
residual `[4, 4, 2, 6, 4]`; no parameter check intervenes. -/
lemma maximise_ex_two :
    maximise_thermal_energy_output [10, 10, 8, 6, 4] 2 =
      some (6, [4, 4, 2, 6, 4]) := by
  simp only [maximise_thermal_energy_output, runLoop_ex_two]
  norm_num [residual_update]

/-- On an empty curve the loop body never runs, `Q_nom` is never
assigned, and the function aborts. -/
lemma maximise_nil (m : ℚ) : maximise_thermal_energy_output [] m = none :=
  rfl

/-- Rounding to 5 decimals is the identity on integers. -/
lemma round5_intCast (n : ℤ) : round5 (n : ℚ) = n := by
  have hcast : (n : ℚ) * 100000 = ((n * 100000 : ℤ) : ℚ) := by
    push_cast
    ring
  have hfl : ⌊(n : ℚ) * 100000⌋ = n * 100000 := by
    rw [hcast, Int.floor_intCast]
  have hrd : roundHalfEven ((n : ℚ) * 100000) = n * 100000 := by
    unfold roundHalfEven
    rw [hfl]
    push_cast
    norm_num
  rw [round5, hrd]
  push_cast
  ring

/-- A single positive integer sample passes the cascade's filter, round
and sort steps unchanged. -/
lemma prepareCurve_single : prepareCurve [5] = [5] := by
  have h5 : round5 5 = 5 := by
    have := round5_intCast 5
    norm_num at this
    simpa using this
  simp [prepareCurve, List.filter_cons, sortDesc, insertDesc, h5]

/-- The sizer on the one-sample curve `[5]` with `min_rel = 0`. -/
lemma maximise_single :
    maximise_thermal_energy_output [5] 0 = some (5, [0]) := by
  have hb : bandSum [5] 5 0 = 5 := by
    norm_num [bandSum, List.filter_cons]
  have h1 : stepQ [5] 0 ⟨0, 1, none, none⟩ 5 = ⟨5, 2, some 5, some 5⟩ := by
    norm_num [stepQ, hb] <;> decide
  have hrun : runLoop [5] 0 = ⟨5, 2, some 5, some 5⟩ := by
    simp only [runLoop, List.foldl_cons, List.foldl_nil, h1]
  simp only [maximise_thermal_energy_output, hrun]
  norm_num [residual_update]

/-- A three-technology cascade on the curve `[5]`: the first technology
absorbs everything, the second one is handed an empty post-filter curve
and the run aborts with an exception. -/
lemma cascade_ex_crash : calculate_nominal_heat_by_tech [0, 0, 0] [5] = none := by
  have hprep0 : prepareCurve [0] = [] := by
    simp [prepareCurve, List.filter_cons, sortDesc]
  simp only [calculate_nominal_heat_by_tech, cascadeLoop, prepareCurve_single,
    maximise_single, hprep0, maximise_nil, Option.map_none']

/-- A one-technology cascade on the curve `[4]` with `min_rel = 1/2`. -/
lemma cascade_ex_single :
    calculate_nominal_heat_by_tech [1/2] [4] = some [⟨1/2, 4, 2⟩] := by
  have h4 : round5 4 = 4 := by
    have := round5_intCast 4
    norm_num at this
    simpa using this
  have hprep : prepareCurve [4] = [4] := by
    simp [prepareCurve, List.filter_cons, sortDesc, insertDesc, h4]
  have hb : bandSum [4] 4 (1/2) = 4 := by
    norm_num [bandSum, List.filter_cons]
  have h1 : stepQ [4] (1/2) ⟨0, 1, none, none⟩ 4 = ⟨4, 2, some 4, some 4⟩ := by
    norm_num [stepQ, hb] <;> decide
  have hrun : runLoop [4] (1/2) = ⟨4, 2, some 4, some 4⟩ := by
    simp only [runLoop, List.foldl_cons, List.foldl_nil, h1]
  have hmax : maximise_thermal_energy_output [4] (1/2) = some (4, [0]) := by
    simp only [maximise_thermal_energy_output, hrun]
    norm_num [residual_update]
  simp only [calculate_nominal_heat_by_tech, cascadeLoop, hprep, hmax,
    Option.map_some']
  norm_num

/-! ## General list facts -/

lemma mul_length_le_sum (l : List ℚ) (x : ℚ) (h : ∀ a ∈ l, x ≤ a) :
    x * (l.length : ℚ) ≤ l.sum := by
  induction l with
  | nil => simp
  | cons a t ih =>
    have ha := h a (List.mem_cons_self a t)
    have ht := ih fun b hb => h b (List.mem_cons_of_mem _ hb)
    simp only [List.length_cons, List.sum_cons]
    have hx : x * ((t.length : ℚ) + 1) = x * (t.length : ℚ) + x := by ring
    push_cast
    rw [hx]
    linarith

lemma sum_filter_add_sum_filter_not (l : List ℚ) (p : ℚ → Bool) :
    (l.filter p).sum + (l.filter fun a => !(p a)).sum = l.sum := by
  induction l with
  | nil => simp
  | cons a t ih =>
    cases hpa : p a <;> simp [List.filter_cons, hpa] <;> linarith

/-! ## Facts about descending-sorted decompositions -/

lemma sorted_decomp_left {p l : List ℚ} {a : ℚ}
    (hs : List.Sorted (· ≥ ·) (p ++ a :: l)) : ∀ x ∈ p, a ≤ x := by
  intro x hx
  exact (List.pairwise_append.mp hs).2.2 x hx a (List.mem_cons_self a l)

lemma sorted_decomp_right {p l : List ℚ} {a : ℚ}
    (hs : List.Sorted (· ≥ ·) (p ++ a :: l)) : ∀ y ∈ l, y ≤ a := by
  intro y hy
  exact List.rel_of_sorted_cons (List.pairwise_append.mp hs).2.1 y hy

/-- In a descending-sorted list, duplicates are adjacent: if the element
about to be processed already occurs in the prefix, the prefix ends with
it. -/
lemma getLast?_eq_of_mem_sorted {p l : List ℚ} {a : ℚ}
    (hs : List.Sorted (· ≥ ·) (p ++ a :: l)) (ha : a ∈ p) :
    p.getLast? = some a := by
  obtain ⟨p1, p2, rfl⟩ := List.append_of_mem ha
  have hne : (a :: p2) ≠ [] := List.cons_ne_nil _ _
  rw [List.getLast?_append_of_ne_nil p1 hne, List.getLast?_eq_getLast _ hne]
  have hzmem := List.getLast_mem hne
  have hp : List.Sorted (· ≥ ·) (p1 ++ a :: p2) := (List.pairwise_append.mp hs).1
  have hza : (a :: p2).getLast hne ≤ a := by
    rcases List.mem_cons.mp hzmem with hz | hz
    · rw [hz]
    · exact sorted_decomp_right hp _ hz
  have haz : a ≤ (a :: p2).getLast hne :=
    sorted_decomp_left hs _ (List.mem_append_right _ hzmem)
  rw [le_antisymm hza haz]

lemma countGT_decomp {p l : List ℚ} {a : ℚ}
    (hgt : ∀ x ∈ p, a < x) (hle : ∀ y ∈ l, y ≤ a) :
    countGT (p ++ a :: l) a = p.length := by
  unfold countGT
  rw [List.filter_append]
  have h1 : p.filter (fun d => decide (a < d)) = p := by
    rw [List.filter_eq_self]
    intro x hx
    simpa using hgt x hx
  have h2 : (a :: l).filter (fun d => decide (a < d)) = [] := by
    rw [List.filter_eq_nil_iff]
    intro y hy
    rcases List.mem_cons.mp hy with hy | hy
    · simp [hy]
    · simpa using not_lt.mpr (hle y hy)
  rw [h1, h2, List.length_append]
  simp

/-! ## Bounds on the objective -/

lemma le_bandSum_self {ts : List ℚ} {q m : ℚ} (hpos : ∀ d ∈ ts, 0 < d)
    (hq : q ∈ ts) (hq0 : 0 < q) (hm1 : m ≤ 1) : q ≤ bandSum ts q m := by
  unfold bandSum
  apply List.single_le_sum
  · intro x hx
    exact (hpos x (List.mem_filter.mp hx).1).le
  · rw [List.mem_filter]
    refine ⟨hq, ?_⟩
    have hqm : q * m ≤ q := by
      calc q * m ≤ q * 1 := mul_le_mul_of_nonneg_left hm1 hq0.le
      _ = q := mul_one q
    simp [hqm]

lemma deliveredEnergy_pos {ts : List ℚ} {m q : ℚ} (hpos : ∀ d ∈ ts, 0 < d)
    (hq : q ∈ ts) (hm1 : m ≤ 1) : 0 < deliveredEnergy ts m q := by
  have hq0 := hpos q hq
  have h1 : (0:ℚ) ≤ q * (countGT ts q : ℚ) :=
    mul_nonneg hq0.le (Nat.cast_nonneg _)
  have h2 := le_bandSum_self hpos hq hq0 hm1
  unfold deliveredEnergy
  linarith

/-! ## The loop invariant -/

/-- Invariant of the search loop after the prefix `p` of the curve has
been processed: `counter` is one past the number of samples seen,
`Q_old` is the sample just seen, and `(area, Q_nom)` hold the running
maximum of the objective over the values of `p`, ties resolved to the
earliest (= largest, by sortedness) candidate. -/
def LoopInv (ts : List ℚ) (m : ℚ) (p : List ℚ) (s : LoopState) : Prop :=
  s.counter = p.length + 1 ∧ s.q_old = p.getLast? ∧
    ((p = [] ∧ s.area = 0 ∧ s.q_nom = none) ∨
      ∃ qb, s.q_nom = some qb ∧ qb ∈ p ∧
        s.area = deliveredEnergy ts m qb ∧
        (∀ x ∈ p, deliveredEnergy ts m x ≤ deliveredEnergy ts m qb) ∧
        (∀ x ∈ p, deliveredEnergy ts m x = deliveredEnergy ts m qb → x ≤ qb))

lemma stepQ_inv {ts p l : List ℚ} {a m : ℚ} {s : LoopState}
    (hts : ts = p ++ a :: l) (hsort : List.Sorted (· ≥ ·) ts)
    (hpos : ∀ d ∈ ts, 0 < d) (hm1 : m ≤ 1)
    (hinv : LoopInv ts m p s) : LoopInv ts m (p ++ [a]) (stepQ ts m s a) := by
  obtain ⟨hc, ho, hd⟩ := hinv
  have hamem : a ∈ ts := by
    rw [hts]
    exact List.mem_append_right _ (List.mem_cons_self _ _)
  have hsd : List.Sorted (· ≥ ·) (p ++ a :: l) := hts ▸ hsort
  by_cases hskip : s.q_old = some a
  · -- duplicate value: the prefix ends with a
    have hlast : p.getLast? = some a := by rw [← ho]; exact hskip
    have hpne : p ≠ [] := by
      intro h
      rw [h] at hlast
      exact Option.noConfusion hlast
    have hap : a ∈ p := by
      have hg := List.getLast?_eq_getLast p hpne
      rw [hg] at hlast
      have := List.getLast_mem hpne
      rwa [Option.some.inj hlast] at this
    simp only [stepQ, if_pos hskip]
    refine ⟨by simp [hc], by simpa [List.getLast?_concat] using hskip, ?_⟩
    rcases hd with ⟨hp, _, _⟩ | ⟨qb, h1, h2, h3, h4, h5⟩
    · exact absurd (hp ▸ hap) (List.not_mem_nil a)
    · refine Or.inr ⟨qb, h1, List.mem_append_left _ h2, h3, ?_, ?_⟩
      · intro x hx
        rcases List.mem_append.mp hx with hx | hx
        · exact h4 x hx
        · rw [List.mem_singleton] at hx
          exact hx ▸ h4 a hap
      · intro x hx
        rcases List.mem_append.mp hx with hx | hx
        · exact h5 x hx
        · rw [List.mem_singleton] at hx
          exact hx ▸ h5 a hap
  · -- a new distinct value
    have hnotmem : a ∉ p := fun hap =>
      hskip (by rw [ho, getLast?_eq_of_mem_sorted hsd hap])
    have hgt : ∀ x ∈ p, a < x := by
      intro x hx
      have hge := sorted_decomp_left hsd x hx
      have hxa : x ≠ a := fun he => hnotmem (he ▸ hx)
      exact lt_of_le_of_ne hge (Ne.symm hxa)
    have hle : ∀ y ∈ l, y ≤ a := sorted_decomp_right hsd
    have hcnt : countGT ts a = p.length := by
      rw [hts]
      exact countGT_decomp hgt hle
    have hsub : ((s.counter - 1 : ℕ) : ℚ) = (p.length : ℚ) := by
      rw [hc]
      simp
    have hafl : a * ((s.counter - 1 : ℕ) : ℚ) + bandSum ts a m =
        deliveredEnergy ts m a := by
      simp only [deliveredEnergy, hsub, hcnt]
    by_cases himp : s.area < a * ((s.counter - 1 : ℕ) : ℚ) + bandSum ts a m
    · -- improving step: a becomes the new best candidate
      simp only [stepQ, if_neg hskip, if_pos himp]
      refine ⟨by simp [hc], by simp, ?_⟩
      refine Or.inr ⟨a, rfl, List.mem_append_right _ (List.mem_cons_self _ _),
        hafl, ?_, ?_⟩
      · intro x hx
        rcases List.mem_append.mp hx with hx | hx
        · rcases hd with ⟨hp, _, _⟩ | ⟨qb, _, _, h3, h4, _⟩
          · exact absurd (hp ▸ hx) (List.not_mem_nil x)
          · have := h4 x hx
            rw [hafl] at himp
            rw [← h3] at this
            linarith
        · rw [List.mem_singleton] at hx
          rw [hx]
      · intro x hx hEq
        rcases List.mem_append.mp hx with hx | hx
        · rcases hd with ⟨hp, _, _⟩ | ⟨qb, _, _, h3, h4, _⟩
          · exact absurd (hp ▸ hx) (List.not_mem_nil x)
          · have := h4 x hx
            rw [hafl] at himp
            rw [← h3] at this
            linarith
        · rw [List.mem_singleton] at hx
          rw [hx]
    · -- non-improving step: the old candidate stays
      simp only [stepQ, if_neg hskip, if_neg himp]
      have hdEpos : 0 < deliveredEnergy ts m a :=
        deliveredEnergy_pos hpos hamem hm1
      rcases hd with ⟨hp, harea, _⟩ | ⟨qb, h1, h2, h3, h4, h5⟩
      · exfalso
        apply himp
        rw [harea, hafl]
        exact hdEpos
      · refine ⟨by simp [hc], by simp, ?_⟩
        refine Or.inr ⟨qb, h1, List.mem_append_left _ h2, h3, ?_, ?_⟩
        · intro x hx
          rcases List.mem_append.mp hx with hx | hx
          · exact h4 x hx
          · rw [List.mem_singleton] at hx
            subst hx
            rw [hafl] at himp
            rw [← h3]
            linarith [not_lt.mp himp]
        · intro x hx _
          rcases List.mem_append.mp hx with hx | hx
          · exact h5 x hx ‹_›
          · rw [List.mem_singleton] at hx
            subst hx
            exact sorted_decomp_left hsd qb h2

lemma foldl_inv {ts : List ℚ} {m : ℚ} (hsort : List.Sorted (· ≥ ·) ts)
    (hpos : ∀ d ∈ ts, 0 < d) (hm1 : m ≤ 1) :
    ∀ (l p : List ℚ) (s : LoopState), ts = p ++ l → LoopInv ts m p s →
      LoopInv ts m ts (List.foldl (stepQ ts m) s l)
  | [], p, s, hts, hinv => by
      have hp : p = ts := by rw [hts, List.append_nil]
      subst hp
      simpa using hinv
  | a :: l, p, s, hts, hinv => by
      rw [List.foldl_cons]
      refine foldl_inv hsort hpos hm1 l (p ++ [a]) (stepQ ts m s a) ?_ ?_
      · rw [hts]
        simp
      · exact stepQ_inv hts hsort hpos hm1 hinv

/-- The search loop of the sizer computes an argmax of the spec objective
`A` over the values occurring in a non-empty, positive, descending-sorted
curve, resolving ties towards the larger value. -/
lemma runLoop_spec {ts : List ℚ} {m : ℚ} (hne : ts ≠ [])
    (hpos : ∀ d ∈ ts, 0 < d) (hsort : List.Sorted (· ≥ ·) ts) (hm1 : m ≤ 1) :
    ∃ qb, (runLoop ts m).q_nom = some qb ∧ qb ∈ ts ∧
      (runLoop ts m).area = deliveredEnergy ts m qb ∧
      (∀ x ∈ ts, deliveredEnergy ts m x ≤ deliveredEnergy ts m qb) ∧
      (∀ x ∈ ts, deliveredEnergy ts m x = deliveredEnergy ts m qb → x ≤ qb) := by
  have hinit : LoopInv ts m [] ⟨0, 1, none, none⟩ :=
    ⟨rfl, rfl, Or.inl ⟨rfl, rfl, rfl⟩⟩
  have h := foldl_inv hsort hpos hm1 ts [] ⟨0, 1, none, none⟩ rfl hinit
  rcases h.2.2 with ⟨hts, _, _⟩ | ⟨qb, h1, h2, h3, h4, h5⟩
  · exact absurd hts hne
  · exact ⟨qb, h1, h2, h3, h4, h5⟩

/-- Main characterisation of the sizer on admissible input: it returns
the residual for a nominal value `qb` occurring in the curve that
maximises the objective `A`, largest among the maximisers, and the
internal best area equals `A(qb)`. -/
lemma maximise_spec {ts : List ℚ} {m : ℚ} (hne : ts ≠ [])
    (hpos : ∀ d ∈ ts, 0 < d) (hsort : List.Sorted (· ≥ ·) ts) (hm1 : m ≤ 1) :
    ∃ qb, maximise_thermal_energy_output ts m =
        some (qb, residual_update ts qb m) ∧
      qb ∈ ts ∧ bestArea ts m = deliveredEnergy ts m qb ∧
      (∀ x ∈ ts, deliveredEnergy ts m x ≤ deliveredEnergy ts m qb) ∧
      (∀ x ∈ ts, deliveredEnergy ts m x = deliveredEnergy ts m qb → x ≤ qb) := by
  obtain ⟨qb, h1, h2, h3, h4, h5⟩ := runLoop_spec hne hpos hsort hm1
  exact ⟨qb, by simp only [maximise_thermal_energy_output, h1], h2, h3, h4, h5⟩

/-! ## Pointwise characterisation of the residual -/

lemma residual_update_eq_map (ts : List ℚ) (qn m : ℚ) :
    residual_update ts qn m = ts.map fun d =>
      if qn < (if d ≤ qn ∧ qn * m ≤ d then 0 else d) then
        (if d ≤ qn ∧ qn * m ≤ d then 0 else d) - qn
      else (if d ≤ qn ∧ qn * m ≤ d then 0 else d) := by
  unfold residual_update
  rw [List.map_map]
  rfl

lemma forall₂_residual {ts : List ℚ} {qn m : ℚ} {R : ℚ → ℚ → Prop}
    (h : ∀ d ∈ ts,
      R d (if qn < (if d ≤ qn ∧ qn * m ≤ d then 0 else d) then
        (if d ≤ qn ∧ qn * m ≤ d then 0 else d) - qn
      else (if d ≤ qn ∧ qn * m ≤ d then 0 else d))) :
    List.Forall₂ R ts (residual_update ts qn m) := by
  rw [residual_update_eq_map, List.forall₂_map_right_iff]
  exact List.forall₂_same.mpr h

/-- With a positive nominal value, the two successive masked updates of
lines 76-77 amount to the three-way case split of the dispatch model. -/
lemma residual_entry_eq {qn m d : ℚ} (hq0 : 0 < qn) :
    (if qn < (if d ≤ qn ∧ qn * m ≤ d then 0 else d) then
      (if d ≤ qn ∧ qn * m ≤ d then 0 else d) - qn
    else (if d ≤ qn ∧ qn * m ≤ d then 0 else d)) =
    (if qn * m ≤ d ∧ d ≤ qn then 0 else if qn < d then d - qn else d) := by
  by_cases hband : d ≤ qn ∧ qn * m ≤ d
  · rw [if_pos hband]
    rw [if_neg (not_lt.mpr hq0.le)]
    rw [if_pos (show qn * m ≤ d ∧ d ≤ qn from ⟨hband.2, hband.1⟩)]
  · rw [if_neg hband]
    rw [if_neg (show ¬(qn * m ≤ d ∧ d ≤ qn) from fun hb => hband ⟨hb.2, hb.1⟩)]

/-! ## Specialisations of the objective -/

lemma bandSum_zero {ts : List ℚ} (x : ℚ) (hpos : ∀ d ∈ ts, 0 < d) :
    bandSum ts x 0 = (ts.filter fun d => d ≤ x).sum := by
  unfold bandSum
  apply congrArg List.sum
  apply List.filter_congr
  intro d hd
  rw [decide_eq_decide]
  simp [mul_zero, (hpos d hd).le]

lemma deliveredEnergy_le_sum {ts : List ℚ} {x : ℚ} (hpos : ∀ d ∈ ts, 0 < d)
    (hx0 : 0 ≤ x) : deliveredEnergy ts 0 x ≤ ts.sum := by
  unfold deliveredEnergy countGT
  rw [bandSum_zero x hpos]
  have h1 : x * ((ts.filter fun d => x < d).length : ℚ) ≤
      (ts.filter fun d => x < d).sum := by
    apply mul_length_le_sum
    intro a ha
    have : x < a := by simpa using (List.mem_filter.mp ha).2
    exact this.le
  have hcong : (ts.filter fun a => !(decide (x < a))) =
      ts.filter fun d => decide (d ≤ x) := by
    apply List.filter_congr
    intro d _
    rw [← decide_not, decide_eq_decide]
    exact not_lt
  have h2 := sum_filter_add_sum_filter_not ts fun d => decide (x < d)
  rw [hcong] at h2
  linarith

lemma deliveredEnergy_zero_max {ts : List ℚ} {M : ℚ} (hpos : ∀ d ∈ ts, 0 < d)
    (hmax : ∀ x ∈ ts, x ≤ M) : deliveredEnergy ts 0 M = ts.sum := by
  unfold deliveredEnergy countGT
  rw [bandSum_zero M hpos]
  have hGT : (ts.filter fun d => decide (M < d)) = [] := by
    rw [List.filter_eq_nil_iff]
    intro y hy
    simpa using not_lt.mpr (hmax y hy)
  have hLE : (ts.filter fun d => decide (d ≤ M)) = ts := by
    rw [List.filter_eq_self]
    intro a ha
    simpa using hmax a ha
  rw [hGT, hLE]
  simp

lemma sorted_head_max {ts : List ℚ} (hsort : List.Sorted (· ≥ ·) ts)
    (hne : ts ≠ []) : ∃ M ∈ ts, ∀ x ∈ ts, x ≤ M := by
  cases ts with
  | nil => exact absurd rfl hne
  | cons a t =>
    refine ⟨a, List.mem_cons_self _ _, ?_⟩
    intro x hx
    rcases List.mem_cons.mp hx with hx | hx
    · exact hx.le
    · exact List.rel_of_sorted_cons hsort x hx

lemma sum_filter_eq (ts : List ℚ) (q : ℚ) :
    (ts.filter fun d => d = q).sum =
      q * (((ts.filter fun d => d = q).length : ℕ) : ℚ) := by
  induction ts with
  | nil => simp
  | cons a t ih =>
    by_cases ha : a = q
    · subst ha
      simp [List.filter_cons, ih]
      push_cast
      ring
    · simp [List.filter_cons, ha, ih]

lemma countGE_split (ts : List ℚ) (q : ℚ) :
    (ts.filter fun d => q ≤ d).length =
      (ts.filter fun d => q < d).length +
        (ts.filter fun d => d = q).length := by
  induction ts with
  | nil => simp
  | cons a t ih =>
    rcases lt_trichotomy q a with h | h | h
    · have hne : ¬ a = q := fun he => absurd h (by rw [he]; exact lt_irrefl q)
      simp [List.filter_cons, le_of_lt h, h, hne, ih]
      omega
    · have ha : a = q := h.symm
      simp [List.filter_cons, ha, lt_irrefl, le_refl, ih]
      omega
    · have h1 : ¬ q ≤ a := not_le.mpr h
      have h2 : ¬ q < a := lt_asymm h
      have h3 : ¬ a = q := ne_of_lt h
      simp [List.filter_cons, h1, h2, h3, ih]

/-- At `min_rel = 1` the spec objective collapses to the classic
maximum-rectangle objective. -/
lemma deliveredEnergy_one (ts : List ℚ) (q : ℚ) :
    deliveredEnergy ts 1 q = rectObjective ts q := by
  unfold deliveredEnergy rectObjective countGT
  have hcong : (ts.filter fun d => decide (d ≤ q ∧ q * 1 ≤ d)) =
      ts.filter fun d => decide (d = q) := by
    apply List.filter_congr
    intro d _
    rw [decide_eq_decide, mul_one]
    exact ⟨fun hb => le_antisymm hb.1 hb.2, fun hb => ⟨hb.le, hb.ge⟩⟩
  have hband : bandSum ts q 1 = q * (((ts.filter fun d => d = q).length : ℕ) : ℚ) := by
    unfold bandSum
    rw [hcong, sum_filter_eq]
  rw [hband, countGE_split]
  push_cast
  ring

/-! ## The cascade -/

lemma cascadeLoop_forall₂ :
    ∀ (ms ts : List ℚ) (l : List (ℚ × ℚ)), cascadeLoop ms ts = some l →
      List.Forall₂ (fun m p => (p : ℚ × ℚ).1 = m) ms l
  | [], ts, l, h => by
      simp only [cascadeLoop, Option.some.injEq] at h
      rw [← h]
      exact List.Forall₂.nil
  | m :: ms, ts, l, h => by
      cases hmx : maximise_thermal_energy_output (prepareCurve ts) m with
      | none =>
        rw [cascadeLoop, hmx] at h
        exact absurd h (by simp)
      | some pr =>
        obtain ⟨qn, res⟩ := pr
        rw [cascadeLoop, hmx] at h
        rw [Option.map_eq_some'] at h
        obtain ⟨rest, hrest, hl⟩ := h
        rw [← hl]
        exact List.Forall₂.cons rfl (cascadeLoop_forall₂ ms res rest hrest)

/-! ## Heap lemmas -/

lemma heap_read_alloc_lt {h : Heap} {v : List ℚ} {r : ℕ}
    (hr : r < h.cells.length) : (h.alloc v).1.read r = h.read r := by
  unfold Heap.alloc Heap.read
  simp only
  rw [List.getD_eq_getElem?_getD, List.getD_eq_getElem?_getD,
    List.getElem?_append, if_pos hr]

lemma heap_read_alloc_new (h : Heap) (v : List ℚ) :
    (h.alloc v).1.read (h.alloc v).2 = v := by
  unfold Heap.alloc Heap.read
  simp only
  rw [List.getD_eq_getElem?_getD, List.getElem?_append,
    if_neg (lt_irrefl _)]
  simp

lemma heap_read_write_ne {h : Heap} {r r2 : ℕ} {v : List ℚ}
    (hne : r2 ≠ r) : (h.write r2 v).read r = h.read r := by
  unfold Heap.write Heap.read
  simp only
  rw [List.getD_eq_getElem?_getD, List.getD_eq_getElem?_getD,
    List.getElem?_set_ne hne]

/-! ## Claim theorems -/

/-- Claim C1: for every non-empty, strictly-positive, descending-sorted
demand curve and every `min_rel` in `[0, 1]`, the returned `Q_nom` is a
value occurring in the curve maximising
`A(Q) = Q * |{t : d_t > Q}| + Σ_{Q*min_rel ≤ d_t ≤ Q} d_t`, and among
all maximisers the largest one is returned. -/
theorem sizer_selects_argmax (ts : List ℚ) (m : ℚ) (hne : ts ≠ [])
    (hpos : ∀ d ∈ ts, 0 < d) (hsort : List.Sorted (· ≥ ·) ts)
    (hm0 : 0 ≤ m) (hm1 : m ≤ 1) :
    ∃ qn res, maximise_thermal_energy_output ts m = some (qn, res) ∧
      qn ∈ ts ∧
      (∀ x ∈ ts, deliveredEnergy ts m x ≤ deliveredEnergy ts m qn) ∧
      (∀ x ∈ ts, deliveredEnergy ts m x = deliveredEnergy ts m qn → x ≤ qn) := by
  obtain ⟨qb, h1, h2, _, h4, h5⟩ := maximise_spec hne hpos hsort hm1
  exact ⟨qb, residual_update ts qb m, h1, h2, h4, h5⟩

/-- Witness for C1 at the curve `[10, 10, 8, 6, 4]` and `min_rel = 1/2`. -/
theorem sizer_selects_argmax_witness :
    (([10, 10, 8, 6, 4] : List ℚ) ≠ [] ∧
      (∀ d ∈ ([10, 10, 8, 6, 4] : List ℚ), 0 < d) ∧
      List.Sorted (· ≥ ·) ([10, 10, 8, 6, 4] : List ℚ) ∧
      (0 : ℚ) ≤ 1/2 ∧ (1/2 : ℚ) ≤ 1) ∧
    (∃ qn res,
      maximise_thermal_energy_output [10, 10, 8, 6, 4] (1/2) = some (qn, res) ∧
      qn ∈ ([10, 10, 8, 6, 4] : List ℚ) ∧
      (∀ x ∈ ([10, 10, 8, 6, 4] : List ℚ),
        deliveredEnergy [10, 10, 8, 6, 4] (1/2) x ≤
          deliveredEnergy [10, 10, 8, 6, 4] (1/2) qn) ∧
      (∀ x ∈ ([10, 10, 8, 6, 4] : List ℚ),
        deliveredEnergy [10, 10, 8, 6, 4] (1/2) x =
          deliveredEnergy [10, 10, 8, 6, 4] (1/2) qn → x ≤ qn)) :=
  ⟨⟨by decide, by decide, by decide, by norm_num, by norm_num⟩,
    sizer_selects_argmax [10, 10, 8, 6, 4] (1/2) (by decide) (by decide)
      (by decide) (by norm_num) (by norm_num)⟩

/-- Claim C2 counterexample: on the curve `[10, 10, 8, 6, 4]` with
`min_rel = 1/2` the sizer does not return `Q_nom = 8`; it returns
`Q_nom = 10` and residual `[0, 0, 0, 0, 4]`. -/
theorem example_run_counterexample :
    maximise_thermal_energy_output [10, 10, 8, 6, 4] (1/2) =
      some (10, [0, 0, 0, 0, 4]) ∧ (10 : ℚ) ≠ 8 :=
  ⟨maximise_ex_half, by norm_num⟩

/-- Claim C2 amended: on `[10, 10, 8, 6, 4]` with `min_rel = 1/2` the
sizer returns `Q_nom = 10`, internal delivered-energy area `34` (a tie
between candidates 10 and 8, broken towards 10), and residual
`[0, 0, 0, 0, 4]`. -/
theorem example_run_actual :
    maximise_thermal_energy_output [10, 10, 8, 6, 4] (1/2) =
      some (10, [0, 0, 0, 0, 4]) ∧
    bestArea [10, 10, 8, 6, 4] (1/2) = 34 :=
  ⟨maximise_ex_half, bestArea_ex_half⟩

/-- Claim C3: entrywise, the returned residual is 0 on the partial-load
band, `d - Q_nom` above `Q_nom` and unchanged below `Q_nom * min_rel`. -/
theorem residual_rule (ts : List ℚ) (m qn : ℚ) (res : List ℚ)
    (hne : ts ≠ []) (hpos : ∀ d ∈ ts, 0 < d)
    (hsort : List.Sorted (· ≥ ·) ts) (hm0 : 0 ≤ m) (hm1 : m ≤ 1)
    (hrun : maximise_thermal_energy_output ts m = some (qn, res)) :
    List.Forall₂ (fun d r =>
      (qn * m ≤ d ∧ d ≤ qn → r = 0) ∧
      (qn < d → r = d - qn) ∧
      (d < qn * m → r = d)) ts res := by
  obtain ⟨qb, h1, h2, _, _, _⟩ := maximise_spec hne hpos hsort hm1
  rw [h1] at hrun
  have hpair := Option.some.inj hrun
  have hqq : qb = qn := congrArg Prod.fst hpair
  subst hqq
  have hres : residual_update ts qb m = res := congrArg Prod.snd hpair
  rw [← hres]
  have hq0 : 0 < qb := hpos _ h2
  apply forall₂_residual
  intro d _
  rw [residual_entry_eq hq0]
  refine ⟨?_, ?_, ?_⟩
  · intro hb
    rw [if_pos hb]
  · intro hlt
    have hnb : ¬(qb * m ≤ d ∧ d ≤ qb) := fun hb => absurd hlt (not_lt.mpr hb.2)
    rw [if_neg hnb, if_pos hlt]
  · intro hlt
    have hd1 : ¬(qb * m ≤ d ∧ d ≤ qb) := fun hb => absurd hlt (not_lt.mpr hb.1)
    have hd2 : ¬ qb < d := by
      have hq : qb * m ≤ qb * 1 := mul_le_mul_of_nonneg_left hm1 hq0.le
      rw [mul_one] at hq
      exact not_lt.mpr (lt_of_lt_of_le hlt hq).le
    rw [if_neg hd1, if_neg hd2]

/-- Witness for C3 at the curve `[10, 10, 8, 6, 4]`, `min_rel = 1/2`. -/
theorem residual_rule_witness :
    maximise_thermal_energy_output [10, 10, 8, 6, 4] (1/2) =
      some (10, [0, 0, 0, 0, 4]) ∧
    List.Forall₂ (fun d r =>
      ((10 : ℚ) * (1/2) ≤ d ∧ d ≤ 10 → r = 0) ∧
      ((10 : ℚ) < d → r = d - 10) ∧
      (d < (10 : ℚ) * (1/2) → r = d))
      [10, 10, 8, 6, 4] [0, 0, 0, 0, 4] :=
  ⟨maximise_ex_half,
    residual_rule [10, 10, 8, 6, 4] (1/2) 10 [0, 0, 0, 0, 4] (by decide)
      (by decide) (by decide) (by norm_num) (by norm_num) maximise_ex_half⟩

/-- Claim C4 counterexample: the sizer does not return the delivered
energy `A(Q_nom)` as an output: on `[10, 10, 8, 6, 4]`, `min_rel = 1/2`
the delivered energy is 34, but the return value consists only of
`Q_nom = 10` and the residual `[0, 0, 0, 0, 4]` - no component equals
34, so no coverage figure is returned (nor can one be normalised and
stored by the cascade). -/
theorem coverage_not_returned :
    maximise_thermal_energy_output [10, 10, 8, 6, 4] (1/2) =
      some (10, [0, 0, 0, 0, 4]) ∧
    bestArea [10, 10, 8, 6, 4] (1/2) = 34 ∧
    (34 : ℚ) ≠ 10 ∧ (34 : ℚ) ∉ ([0, 0, 0, 0, 4] : List ℚ) :=
  ⟨maximise_ex_half, bestArea_ex_half, by norm_num, by decide⟩

/-- Claim C4 amended: the sizer returns only the pair
`(Q_nom, residual)`; the delivered-energy sum is just the internal
selection criterion.  The cascade stores, for every technology, its
`Q_min_rel`, the `Q_nom` returned by the sizer and
`Q_min = Q_nom * Q_min_rel`; no coverage is computed or stored. -/
theorem cascade_stores (ms ts : List ℚ) (res : List TechResult)
    (h : calculate_nominal_heat_by_tech ms ts = some res) :
    List.Forall₂ (fun mrel r =>
      r.Q_min_rel = mrel ∧ r.Q_min = r.Q_nom * r.Q_min_rel) ms res := by
  unfold calculate_nominal_heat_by_tech at h
  rw [Option.map_eq_some'] at h
  obtain ⟨l, hl, hres⟩ := h
  rw [← hres]
  have hf := cascadeLoop_forall₂ ms ts l hl
  rw [List.forall₂_map_right_iff]
  refine hf.imp ?_
  intro a b hab
  exact ⟨hab, rfl⟩

/-- Witness for C4 amended: a one-technology cascade on `[4]` with
`Q_min_rel = 1/2`. -/
theorem cascade_stores_witness :
    calculate_nominal_heat_by_tech [1/2] [4] = some [⟨1/2, 4, 2⟩] ∧
    List.Forall₂ (fun mrel r =>
      r.Q_min_rel = mrel ∧ r.Q_min = r.Q_nom * r.Q_min_rel)
      [1/2] [(⟨1/2, 4, 2⟩ : TechResult)] :=
  ⟨cascade_ex_single,
    cascade_stores [1/2] [4] [⟨1/2, 4, 2⟩] cascade_ex_single⟩

/-- Claim C5: the code does not short-circuit a technology that meets an
empty curve; it aborts.  On the curve `[5]` with three technologies of
`Q_min_rel = 0` each, the first absorbs all demand and the second is
handed an empty post-filter curve: `Q_nom` is never assigned and the
run raises `UnboundLocalError` instead of recording zero-results. -/
theorem cascade_empty_curve_raises :
    calculate_nominal_heat_by_tech [0, 0, 0] [5] = none :=
  cascade_ex_crash

/-- Claim C8: no `InvalidParameterError` exists; with the out-of-range
factor `Q_min_rel = 2` on the curve `[10, 10, 8, 6, 4]` the sizer
silently computes `Q_nom = 6` and residual `[4, 4, 2, 6, 4]` instead of
failing fast at the boundary. -/
theorem out_of_range_min_rel_not_rejected :
    maximise_thermal_energy_output [10, 10, 8, 6, 4] 2 =
      some (6, [4, 4, 2, 6, 4]) :=
  maximise_ex_two

/-- Claim C6: with `min_rel = 0` the sizer picks the maximum value of
the curve and the residual is all-zero. -/
theorem min_rel_zero_spec (ts : List ℚ) (hne : ts ≠ [])
    (hpos : ∀ d ∈ ts, 0 < d) (hsort : List.Sorted (· ≥ ·) ts) :
    ∃ qn res, maximise_thermal_energy_output ts 0 = some (qn, res) ∧
      qn ∈ ts ∧ (∀ x ∈ ts, x ≤ qn) ∧ ∀ r ∈ res, r = 0 := by
  obtain ⟨qb, h1, h2, _, h4, h5⟩ := maximise_spec hne hpos hsort
    (by norm_num : (0:ℚ) ≤ 1)
  obtain ⟨M, hM, hMmax⟩ := sorted_head_max hsort hne
  have hAM : deliveredEnergy ts 0 M = ts.sum :=
    deliveredEnergy_zero_max hpos hMmax
  have hqb_le : deliveredEnergy ts 0 qb ≤ ts.sum :=
    deliveredEnergy_le_sum hpos (hpos qb h2).le
  have heq : deliveredEnergy ts 0 M = deliveredEnergy ts 0 qb :=
    le_antisymm (h4 M hM) (by rw [hAM]; exact hqb_le)
  have hmax : ∀ x ∈ ts, x ≤ qb := fun x hx =>
    le_trans (hMmax x hx) (h5 M hM heq)
  refine ⟨qb, residual_update ts qb 0, h1, h2, hmax, ?_⟩
  intro r hr
  rw [residual_update_eq_map] at hr
  obtain ⟨d, hd, hrd⟩ := List.mem_map.mp hr
  rw [← hrd]
  have hband : d ≤ qb ∧ qb * 0 ≤ d := by
    refine ⟨hmax d hd, ?_⟩
    rw [mul_zero]
    exact (hpos d hd).le
  rw [if_pos hband]
  rw [if_neg (not_lt.mpr (hpos qb h2).le)]

/-- Witness for C6 at the curve `[10, 10, 8, 6, 4]`. -/
theorem min_rel_zero_spec_witness :
    (([10, 10, 8, 6, 4] : List ℚ) ≠ [] ∧
      (∀ d ∈ ([10, 10, 8, 6, 4] : List ℚ), 0 < d) ∧
      List.Sorted (· ≥ ·) ([10, 10, 8, 6, 4] : List ℚ)) ∧
    (∃ qn res, maximise_thermal_energy_output [10, 10, 8, 6, 4] 0 =
        some (qn, res) ∧
      qn ∈ ([10, 10, 8, 6, 4] : List ℚ) ∧
      (∀ x ∈ ([10, 10, 8, 6, 4] : List ℚ), x ≤ qn) ∧ ∀ r ∈ res, r = 0) :=
  ⟨⟨by decide, by decide, by decide⟩,
    min_rel_zero_spec [10, 10, 8, 6, 4] (by decide) (by decide) (by decide)⟩

/-- Claim C7: with `min_rel = 1` the returned `Q_nom` maximises the
classic rectangle objective `Q × count(d ≥ Q)` over the curve's
values. -/
theorem min_rel_one_spec (ts : List ℚ) (hne : ts ≠ [])
    (hpos : ∀ d ∈ ts, 0 < d) (hsort : List.Sorted (· ≥ ·) ts) :
    ∃ qn res, maximise_thermal_energy_output ts 1 = some (qn, res) ∧
      qn ∈ ts ∧ ∀ x ∈ ts, rectObjective ts x ≤ rectObjective ts qn := by
  obtain ⟨qb, h1, h2, _, h4, _⟩ := maximise_spec hne hpos hsort le_rfl
  refine ⟨qb, residual_update ts qb 1, h1, h2, ?_⟩
  intro x hx
  have hle := h4 x hx
  rwa [deliveredEnergy_one, deliveredEnergy_one] at hle

/-- Witness for C7 at the curve `[10, 10, 8, 6, 4]`. -/
theorem min_rel_one_spec_witness :
    (([10, 10, 8, 6, 4] : List ℚ) ≠ [] ∧
      (∀ d ∈ ([10, 10, 8, 6, 4] : List ℚ), 0 < d) ∧
      List.Sorted (· ≥ ·) ([10, 10, 8, 6, 4] : List ℚ)) ∧
    (∃ qn res, maximise_thermal_energy_output [10, 10, 8, 6, 4] 1 =
        some (qn, res) ∧
      qn ∈ ([10, 10, 8, 6, 4] : List ℚ) ∧
      ∀ x ∈ ([10, 10, 8, 6, 4] : List ℚ),
        rectObjective [10, 10, 8, 6, 4] x ≤
          rectObjective [10, 10, 8, 6, 4] qn) :=
  ⟨⟨by decide, by decide, by decide⟩,
    min_rel_one_spec [10, 10, 8, 6, 4] (by decide) (by decide) (by decide)⟩

/-- Claim C9: the sizer works on a copy of the caller's series (line 57)
and never writes through the caller's reference: after the call the
caller's object is unchanged, and the returned nominal value agrees with
the pure function of the passed curve. -/
theorem sizer_preserves_caller (h : Heap) (r : ℕ) (m : ℚ)
    (hr : r < h.cells.length) :
    ((maximiseOnHeap h r m).2.2).read r = h.read r ∧
    (maximiseOnHeap h r m).1 =
      Option.map Prod.fst (maximise_thermal_energy_output (h.read r) m) := by
  have hne : (h.alloc (h.read r)).2 ≠ r := ne_of_gt hr
  have hts : (h.alloc (h.read r)).1.read (h.alloc (h.read r)).2 = h.read r :=
    heap_read_alloc_new h _
  simp only [maximiseOnHeap, hts]
  cases hq : (runLoop (h.read r) m).q_nom with
  | none =>
    simp only [hq]
    exact ⟨heap_read_alloc_lt hr,
      by simp [maximise_thermal_energy_output, hq]⟩
  | some qn =>
    simp only [hq]
    refine ⟨?_, by simp [maximise_thermal_energy_output, hq]⟩
    rw [heap_read_write_ne hne, heap_read_write_ne hne]
    exact heap_read_alloc_lt hr

/-- Witness for C9 on a one-object heap holding the series `[5]`. -/
theorem sizer_preserves_caller_witness :
    0 < (Heap.mk [[5]]).cells.length ∧
    (((maximiseOnHeap ⟨[[5]]⟩ 0 0).2.2).read 0 = (⟨[[5]]⟩ : Heap).read 0 ∧
      (maximiseOnHeap ⟨[[5]]⟩ 0 0).1 =
        Option.map Prod.fst
          (maximise_thermal_energy_output ((⟨[[5]]⟩ : Heap).read 0) 0)) :=
  ⟨by decide, sizer_preserves_caller ⟨[[5]]⟩ 0 0 (by decide)⟩

/-- Claim C10: each residual entry lies between 0 and the corresponding
input sample, and the returned nominal value is strictly positive. -/
theorem residual_bounds (ts : List ℚ) (m qn : ℚ) (res : List ℚ)
    (hne : ts ≠ []) (hpos : ∀ d ∈ ts, 0 < d)
    (hsort : List.Sorted (· ≥ ·) ts) (hm0 : 0 ≤ m) (hm1 : m ≤ 1)
    (hrun : maximise_thermal_energy_output ts m = some (qn, res)) :
    0 < qn ∧ List.Forall₂ (fun d r => 0 ≤ r ∧ r ≤ d) ts res := by
  obtain ⟨qb, h1, h2, _, _, _⟩ := maximise_spec hne hpos hsort hm1
  rw [h1] at hrun
  have hpair := Option.some.inj hrun
  have hqq : qb = qn := congrArg Prod.fst hpair
  subst hqq
  have hres : residual_update ts qb m = res := congrArg Prod.snd hpair
  have hq0 : 0 < qb := hpos _ h2
  refine ⟨hq0, ?_⟩
  rw [← hres]
  apply forall₂_residual
  intro d hd
  rw [residual_entry_eq hq0]
  have hd0 := hpos d hd
  by_cases hband : qb * m ≤ d ∧ d ≤ qb
  · rw [if_pos hband]
    exact ⟨le_rfl, hd0.le⟩
  · rw [if_neg hband]
    by_cases hgt : qb < d
    · rw [if_pos hgt]
      constructor <;> linarith
    · rw [if_neg hgt]
      exact ⟨hd0.le, le_rfl⟩

/-- Witness for C10 at the curve `[10, 10, 8, 6, 4]`, `min_rel = 1/2`. -/
theorem residual_bounds_witness :
    maximise_thermal_energy_output [10, 10, 8, 6, 4] (1/2) =
      some (10, [0, 0, 0, 0, 4]) ∧
    ((0 : ℚ) < 10 ∧
      List.Forall₂ (fun d r => 0 ≤ r ∧ r ≤ d)
        ([10, 10, 8, 6, 4] : List ℚ) [0, 0, 0, 0, 4]) :=
  ⟨maximise_ex_half,
    residual_bounds [10, 10, 8, 6, 4] (1/2) 10 [0, 0, 0, 0, 4] (by decide)
      (by decide) (by decide) (by norm_num) (by norm_num) maximise_ex_half⟩
